import Mathlib

/-!
Shallow embedding of the theater queueing simulation
(`SimpyTheaterRealPython.py`) and of the discrete-event engine it runs on.

The theater script is embedded as trace-producing functions: each simulated
process is rendered as the list of observable engine events it emits
(resource acquisitions/releases, timeouts, sample appends).  Virtual-clock
values observed at resumption points, and the unit samples consumed by the
random primitives, are passed in as explicit parameters, so every theorem
quantifies over all possible schedules and random draws.

Rational numbers stand in for Python floats throughout (exact arithmetic).
-/

namespace SimpyTheater

/-- Resources made available by the theater: cashiers, ushers, servers. -/
inductive Res where
  | cashier
  | usher
  | server
deriving DecidableEq, Repr

/-- Observable events emitted by a moviegoer process: acquiring and
releasing a resource handle, suspending on a timeout of a given duration,
and appending a wait-time sample to the global `wait_times` list. -/
inductive Ev where
  | acquire (r : Res)
  | release (r : Res)
  | timeout (d : ℚ)
  | append (v : ℚ)
deriving DecidableEq, Repr

/-- Model of Python `random.uniform a b`: returns `a + (b - a) * u` where
`u` is a unit sample produced by `random.random()`, so `0 ≤ u < 1`. -/
def random_uniform (a b u : ℚ) : ℚ := a + (b - a) * u

/-- Model of the Python expression
`random.choices(['food', 'no_food'], weights=[0.4, 0.6], k=1)`:
a single draw from the cumulative weights `[0.4, 1.0]`; the unit sample `u`
selects `'food'` exactly when `u * 1.0 < 0.4`. -/
def random_choices_food (u : ℚ) : List String :=
  if u < 2/5 then ["food"] else ["no_food"]

/-- `Theater.purchase_ticket`: yields one timeout of `random.uniform(1, 3)`
virtual time units (`u` is the unit sample consumed by `uniform`). -/
def purchase_ticket (u : ℚ) : List Ev :=
  [Ev.timeout (random_uniform 1 3 u)]

/-- `Theater.check_ticket`: yields one timeout of `0.05` time units. -/
def check_ticket : List Ev :=
  [Ev.timeout (1/20)]

/-- `Theater.sell_food`: yields one timeout of `random.uniform(1, 5)`. -/
def sell_food (u : ℚ) : List Ev :=
  [Ev.timeout (random_uniform 1 5 u)]

/-- `go_to_movies(env, moviegoer, theater)` as the trace of events the
process emits.  `arrival` is `env.now` at entry; `finish` is `env.now`
observed after the last suspension point (the completion time chosen by the
scheduler); `uTicket`, `uChoice`, `uFood` are the unit samples consumed by
`random.uniform(1,3)`, `random.choices(...)` and `random.uniform(1,5)`.
Each `with ... .request()` block acquires a handle, runs the nested
process, and releases the handle when the block is exited. -/
def go_to_movies (arrival finish uTicket uChoice uFood : ℚ) : List Ev :=
  [Ev.acquire Res.cashier] ++ purchase_ticket uTicket ++ [Ev.release Res.cashier]
    ++ [Ev.acquire Res.usher] ++ check_ticket ++ [Ev.release Res.usher]
    ++ (if "food" ∈ random_choices_food uChoice then
          [Ev.acquire Res.server] ++ sell_food uFood ++ [Ev.release Res.server]
        else [])
    ++ [Ev.append (finish - arrival)]

/-- The wait-time samples appended to `wait_times` along a trace. -/
def samples (t : List Ev) : List ℚ :=
  t.filterMap fun e =>
    match e with
    | Ev.append v => some v
    | _ => none

/-- Net number of handles of resource `r` held after the events of `t`
(+1 per acquire, −1 per release). -/
def held (r : Res) (t : List Ev) : ℤ :=
  (t.map fun e =>
    (if e = Ev.acquire r then (1 : ℤ) else 0) -
      (if e = Ev.release r then (1 : ℤ) else 0)).sum

/-- Bounded-hold checker: starting from `h` held handles of resource `r`,
scan the trace and check that after every event the number held stays
between `0` and `1` (a moviegoer holds at most one handle per pool and
never releases a handle it does not hold). -/
def heldOk (r : Res) : ℤ → List Ev → Bool
  | _, [] => true
  | h, e :: t =>
      let h' := h + (if e = Ev.acquire r then 1 else 0) -
        (if e = Ev.release r then 1 else 0)
      decide (0 ≤ h') && decide (h' ≤ 1) && heldOk r h' t

/-- Actions emitted by the arrival generator `run_theater`: spawning the
moviegoer process with a given index, or suspending on a timeout. -/
inductive TheaterAction where
  | spawnMoviegoer (id : Nat)
  | timeout (d : ℚ)
deriving DecidableEq, Repr

/-- The `while True:` loop of `run_theater`, unrolled for `fuel`
iterations: each iteration yields `env.timeout(0.2)`, increments the
moviegoer counter `m`, and spawns `go_to_movies` for the new index. -/
def run_theater_loop : Nat → Nat → List TheaterAction
  | _, 0 => []
  | m, n + 1 =>
      TheaterAction.timeout (1/5) :: TheaterAction.spawnMoviegoer (m + 1) ::
        run_theater_loop (m + 1) n

/-- `run_theater(env, ...)` as the sequence of actions it performs: the
`for moviegoer in range(5)` loop spawns moviegoers 0–4 (leaving the loop
variable at 4), then the infinite arrival loop runs; `fuel` bounds how many
iterations of that loop we observe. -/
def run_theater (fuel : Nat) : List TheaterAction :=
  (List.range 5).map TheaterAction.spawnMoviegoer ++ run_theater_loop 4 fuel

/-- Model of Python `statistics.mean`: the arithmetic mean of a list;
raises `StatisticsError` on an empty sequence, rendered as `none`. -/
def statistics_mean (l : List ℚ) : Option ℚ :=
  if l = [] then none else some (l.sum / l.length)

/-- `get_average_wait_time(wait_times)`: returns `statistics.mean`. -/
def get_average_wait_time (wait_times : List ℚ) : Option ℚ :=
  statistics_mean wait_times

/-- `calculate_wait_time(wait_times)`: computes the mean, splits it with
`divmod(average_wait, 1)` into a whole-minutes part and a fraction, and
scales the fraction by 60 into seconds.  Python `divmod(x, 1)` is
`(⌊x⌋, x - ⌊x⌋)`. -/
def calculate_wait_time (wait_times : List ℚ) : Option (ℚ × ℚ) :=
  (statistics_mean wait_times).map fun average_wait =>
    let minutes : ℚ := (average_wait.floor : ℚ)
    let frac_minutes : ℚ := average_wait - minutes
    (minutes, frac_minutes * 60)

/-- Modelled from the spec: the engine's Resource Pool (spec §3, §4.2);
the `simpy.Resource` implementation is not part of this repository's
sources.  `capacity` is fixed at creation, `held_count` counts units
currently held, `wait_queue` holds the ids of pending acquire requests in
arrival order. -/
structure Pool where
  capacity : ℤ
  held_count : ℤ
  wait_queue : List Nat
deriving DecidableEq, Repr

/-- Engine errors of the Resource Pool. -/
inductive PoolErr where
  | resourceMisuse
deriving DecidableEq, Repr

/-- A pool created with capacity `c` holds no units and has no waiters. -/
def mkPool (c : ℤ) : Pool :=
  { capacity := c, held_count := 0, wait_queue := [] }

/-- An operation issued against a Resource Pool: an acquire request by the
process with id `rid`, or a release of one held unit. -/
inductive PoolOp where
  | acquire (rid : Nat)
  | release
deriving DecidableEq, Repr

/-- Modelled from the spec: `acquire()` (spec §4.2).  If a unit is free the
request is granted immediately; otherwise it is enqueued at the tail of
the wait queue.  Returns the new pool state and the grants emitted. -/
def Pool.acquire (s : Pool) (rid : Nat) : Pool × List Nat :=
  if s.held_count < s.capacity then
    ({ s with held_count := s.held_count + 1 }, [rid])
  else
    ({ s with wait_queue := s.wait_queue ++ [rid] }, [])

/-- Modelled from the spec: `release()` (spec §4.2).  Releasing with no
unit held is a contract violation (`ResourceMisuse`).  Otherwise the unit
is returned and, if the wait queue is non-empty, its head is granted next
(`held_count += 1` again). -/
def Pool.release (s : Pool) : Except PoolErr (Pool × List Nat) :=
  if s.held_count ≤ 0 then Except.error PoolErr.resourceMisuse
  else
    match s.wait_queue with
    | [] => Except.ok ({ s with held_count := s.held_count - 1 }, [])
    | w :: rest =>
        Except.ok ({ s with held_count := s.held_count - 1 + 1,
                            wait_queue := rest }, [w])

/-- One pool operation, dispatching on the op. -/
def Pool.step (s : Pool) : PoolOp → Except PoolErr (Pool × List Nat)
  | PoolOp.acquire rid => Except.ok (s.acquire rid)
  | PoolOp.release => s.release

/-- The sequence of pool states reached while executing `ops`, stopping at
the first contract violation. -/
def runStates (s : Pool) : List PoolOp → List Pool
  | [] => []
  | op :: ops =>
      match s.step op with
      | Except.error _ => []
      | Except.ok (s', _) => s' :: runStates s' ops

/-- The sequence of grants (requester ids) emitted while executing `ops`,
stopping at the first contract violation. -/
def runGrants (s : Pool) : List PoolOp → List Nat
  | [] => []
  | op :: ops =>
      match s.step op with
      | Except.error _ => []
      | Except.ok (s', g) => g ++ runGrants s' ops

/-- Pools whose wait queue is non-empty are saturated: no unit is free.
This holds in every state reachable from `mkPool` and is what rules out
queue-jumping immediate grants. -/
def PoolInv (s : Pool) : Prop :=
  s.wait_queue ≠ [] → s.capacity ≤ s.held_count

/-- Modelled from the spec: the Scheduler's clock and event queue
(spec §3, §4.1); the engine implementation is not part of this
repository's sources.  Queue entries are `(scheduled_time, sequence_id)`
pairs. -/
structure Sched where
  clock : ℚ
  queue : List (ℚ × Nat)
  next_seq : Nat
deriving DecidableEq, Repr

/-- Engine errors of the Scheduler. -/
inductive SchedErr where
  | invalidDelay
deriving DecidableEq, Repr

/-- Observable status of a Process. -/
inductive ProcStatus where
  | running
  | suspended
  | terminated
deriving DecidableEq, Repr

/-- Modelled from the spec: `schedule_timeout(process, delay)` (spec §4.1,
§7).  A negative delay is rejected with `InvalidDelay` at the call site:
the scheduler state is left untouched and the calling process keeps its
status.  A valid delay inserts an event at `clock + delay` and suspends
the caller. -/
def schedule_timeout (s : Sched) (p : ProcStatus) (delay : ℚ) :
    Sched × ProcStatus × Option SchedErr :=
  if delay < 0 then (s, p, some SchedErr.invalidDelay)
  else
    ({ clock := s.clock,
       queue := s.queue ++ [(s.clock + delay, s.next_seq)],
       next_seq := s.next_seq + 1 },
     ProcStatus.suspended, none)

/-! ### Helper lemmas -/

theorem samples_append (t u : List Ev) :
    samples (t ++ u) = samples t ++ samples u :=
  List.filterMap_append t u _

theorem run_theater_loop_succ (m n : Nat) :
    run_theater_loop m (n + 1) =
      run_theater_loop m n ++
        [TheaterAction.timeout (1/5), TheaterAction.spawnMoviegoer (m + n + 1)] := by
  induction n generalizing m with
  | zero => simp [run_theater_loop]
  | succ n ih =>
      have h1 : run_theater_loop m (n + 1 + 1) =
          TheaterAction.timeout (1/5) :: TheaterAction.spawnMoviegoer (m + 1) ::
            run_theater_loop (m + 1) (n + 1) := rfl
      have h2 : run_theater_loop m (n + 1) =
          TheaterAction.timeout (1/5) :: TheaterAction.spawnMoviegoer (m + 1) ::
            run_theater_loop (m + 1) n := rfl
      rw [h1, ih (m + 1), h2]
      simp only [List.cons_append]
      have h3 : m + 1 + n + 1 = m + (n + 1) + 1 := by omega
      rw [h3]

/-! ### Claim theorems -/

/-- C1: `run_theater` spawns exactly the five initial moviegoers 0–4 at
simulation start, and every subsequent iteration of its arrival loop
consists of exactly one suspension of `0.2` virtual time units followed by
exactly one spawn of a fresh moviegoer (index `5 + i` at iteration `i`);
the loop runs forever, so the equation holds for every finite number of
observed iterations `fuel`. -/
theorem run_theater_arrivals (fuel : Nat) :
    run_theater fuel =
      (List.range 5).map TheaterAction.spawnMoviegoer ++
        (List.range fuel).flatMap
          (fun i => [TheaterAction.timeout (1/5),
                     TheaterAction.spawnMoviegoer (5 + i)]) := by
  induction fuel with
  | zero => simp [run_theater, run_theater_loop]
  | succ n ih =>
      have hfold : run_theater (n + 1) = run_theater n ++
          [TheaterAction.timeout (1/5), TheaterAction.spawnMoviegoer (5 + n)] := by
        show (List.range 5).map TheaterAction.spawnMoviegoer ++
            run_theater_loop 4 (n + 1) = _
        rw [run_theater_loop_succ]
        rw [show (4 : Nat) + n + 1 = 5 + n from by omega]
        rw [run_theater, List.append_assoc]
      rw [hfold, ih]
      simp [List.range_succ, List.flatMap_append, List.append_assoc]

/-- C7: the ticket-purchase step suspends the moviegoer for exactly one
timeout whose duration is `random.uniform(1, 3)`; for every unit sample
`u` of `random.random()` the resulting delay lies between `1` and `3`. -/
theorem purchase_ticket_bounds (u : ℚ) (h0 : 0 ≤ u) (h1 : u < 1) :
    purchase_ticket u = [Ev.timeout (random_uniform 1 3 u)] ∧
      1 ≤ random_uniform 1 3 u ∧ random_uniform 1 3 u ≤ 3 := by
  refine ⟨rfl, ?_, ?_⟩ <;> simp only [random_uniform] <;> nlinarith

theorem purchase_ticket_bounds_witness :
    purchase_ticket (1/2) = [Ev.timeout (random_uniform 1 3 (1/2))] ∧
      1 ≤ random_uniform 1 3 (1/2) ∧ random_uniform 1 3 (1/2) ≤ 3 :=
  purchase_ticket_bounds (1/2) (by norm_num) (by norm_num)

/-- C9: on a non-empty list of (non-negative) wait-time samples,
`calculate_wait_time` returns `(minutes, seconds)` where `minutes` is the
integer part `⌊mean⌋` of the mean, `seconds = (mean − minutes) * 60`,
`minutes + seconds / 60 = mean`, and `0 ≤ seconds < 60`, all in exact
arithmetic. -/
theorem calculate_wait_time_spec (w : List ℚ) (hne : w ≠ [])
    (hpos : ∀ x ∈ w, 0 ≤ x) :
    ∃ avg : ℚ, statistics_mean w = some avg ∧ 0 ≤ avg ∧
      calculate_wait_time w = some ((⌊avg⌋ : ℚ), (avg - (⌊avg⌋ : ℚ)) * 60) ∧
      (⌊avg⌋ : ℚ) + ((avg - (⌊avg⌋ : ℚ)) * 60) / 60 = avg ∧
      0 ≤ (avg - (⌊avg⌋ : ℚ)) * 60 ∧ (avg - (⌊avg⌋ : ℚ)) * 60 < 60 := by
  refine ⟨w.sum / w.length, ?_, ?_, ?_, by ring, ?_, ?_⟩
  · simp [statistics_mean, hne]
  · exact div_nonneg (List.sum_nonneg hpos) (Nat.cast_nonneg _)
  · simp only [calculate_wait_time, statistics_mean, if_neg hne, Option.map_some]
    rfl
  · have := Int.fract_nonneg (w.sum / w.length)
    rw [Int.fract] at this
    nlinarith
  · have := Int.fract_lt_one (w.sum / w.length)
    rw [Int.fract] at this
    nlinarith

theorem calculate_wait_time_spec_witness :
    ∃ avg : ℚ, statistics_mean [3/2] = some avg ∧ 0 ≤ avg ∧
      calculate_wait_time [3/2] = some ((⌊avg⌋ : ℚ), (avg - (⌊avg⌋ : ℚ)) * 60) ∧
      (⌊avg⌋ : ℚ) + ((avg - (⌊avg⌋ : ℚ)) * 60) / 60 = avg ∧
      0 ≤ (avg - (⌊avg⌋ : ℚ)) * 60 ∧ (avg - (⌊avg⌋ : ℚ)) * 60 < 60 :=
  calculate_wait_time_spec [3/2] (by simp) (by norm_num)

/-- C10: on the empty sample list both helpers fail instead of returning a
value (`statistics.mean` raises `StatisticsError` on an empty sequence,
rendered here as `none`). -/
theorem empty_wait_times :
    get_average_wait_time [] = none ∧ calculate_wait_time [] = none := by
  constructor <;> rfl

/-- C2: every completed `go_to_movies` run appends exactly one wait-time
sample, whose value is `env.now` at completion minus `env.now` at arrival;
consequently the sample count after any collection of completed runs
equals the number of runs. -/
theorem go_to_movies_sample :
    (∀ arrival finish uTicket uChoice uFood : ℚ,
        samples (go_to_movies arrival finish uTicket uChoice uFood) =
          [finish - arrival]) ∧
    (∀ runs : List (ℚ × ℚ × ℚ × ℚ × ℚ),
        (samples (runs.flatMap fun x =>
            go_to_movies x.1 x.2.1 x.2.2.1 x.2.2.2.1 x.2.2.2.2)).length =
          runs.length) := by
  have h1 : ∀ arrival finish uTicket uChoice uFood : ℚ,
      samples (go_to_movies arrival finish uTicket uChoice uFood) =
        [finish - arrival] := by
    intro a f uT uC uF
    by_cases h : "food" ∈ random_choices_food uC <;>
      simp [go_to_movies, samples, purchase_ticket, check_ticket, sell_food, h]
  refine ⟨h1, ?_⟩
  intro runs
  induction runs with
  | nil => simp [samples]
  | cons x rs ih =>
      rw [List.flatMap_cons, samples_append, List.length_append, h1, ih]
      simp only [List.length_singleton, List.length_cons, List.length_nil]
      omega

theorem heldOk_prefix (r : Res) :
    ∀ (t p : List Ev) (h : ℤ), p <+: t → 0 ≤ h → h ≤ 1 →
      heldOk r h t = true → 0 ≤ h + held r p ∧ h + held r p ≤ 1 := by
  intro t
  induction t with
  | nil =>
      intro p h hp h0 h1 _
      rw [List.prefix_nil] at hp
      subst hp
      simpa [held] using ⟨h0, h1⟩
  | cons e t ih =>
      intro p h hp h0 h1 hok
      cases p with
      | nil => simpa [held] using ⟨h0, h1⟩
      | cons e' p' =>
          obtain ⟨he, hp'⟩ := List.cons_prefix_cons.mp hp
          subst he
          simp only [heldOk, Bool.and_eq_true, decide_eq_true_eq] at hok
          obtain ⟨⟨hh0, hh1⟩, hok'⟩ := hok
          have hrec := ih p' _ hp' hh0 hh1 hok'
          have hcons : held r (e' :: p') =
              ((if e' = Ev.acquire r then (1 : ℤ) else 0) -
                (if e' = Ev.release r then (1 : ℤ) else 0)) + held r p' := by
            simp [held]
          rw [hcons]
          constructor <;> linarith [hrec.1, hrec.2]

/-- C5: in `go_to_movies` every acquired handle (cashier, usher, server)
is released exactly once on every exit path of its `with` block: per
resource the trace has equally many acquires and releases (at most one of
each), ends holding nothing, and no prefix of the trace ever holds a
negative number of handles or more than one handle of a pool. -/
theorem go_to_movies_scoped_release
    (arrival finish uTicket uChoice uFood : ℚ) (r : Res) :
    ((go_to_movies arrival finish uTicket uChoice uFood).count (Ev.acquire r) =
        (go_to_movies arrival finish uTicket uChoice uFood).count (Ev.release r)) ∧
      (go_to_movies arrival finish uTicket uChoice uFood).count (Ev.acquire r) ≤ 1 ∧
      held r (go_to_movies arrival finish uTicket uChoice uFood) = 0 ∧
      ∀ p, p <+: go_to_movies arrival finish uTicket uChoice uFood →
        0 ≤ held r p ∧ held r p ≤ 1 := by
  have hok : heldOk r 0 (go_to_movies arrival finish uTicket uChoice uFood) = true := by
    by_cases h : "food" ∈ random_choices_food uChoice <;> cases r <;>
      simp [go_to_movies, purchase_ticket, check_ticket, sell_food, heldOk, h]
  refine ⟨?_, ?_, ?_, fun p hp => ?_⟩
  · by_cases h : "food" ∈ random_choices_food uChoice <;> cases r <;>
      simp [go_to_movies, purchase_ticket, check_ticket, sell_food, h]
  · by_cases h : "food" ∈ random_choices_food uChoice <;> cases r <;>
      simp [go_to_movies, purchase_ticket, check_ticket, sell_food, h]
  · by_cases h : "food" ∈ random_choices_food uChoice <;> cases r <;>
      simp [go_to_movies, purchase_ticket, check_ticket, sell_food, held, h]
  · have := heldOk_prefix r _ p 0 hp (by norm_num) (by norm_num) hok
    simpa using this

theorem go_to_movies_scoped_release_witness :
    0 ≤ held Res.cashier [Ev.acquire Res.cashier] ∧
      held Res.cashier [Ev.acquire Res.cashier] ≤ 1 :=
  (go_to_movies_scoped_release 0 10 0 (1/2) 0 Res.cashier).2.2.2
    [Ev.acquire Res.cashier] (by decide)

/-- C8: the server pool is touched if and only if the 40%/60% random
choice selects `'food'` (our model selects `'food'` exactly when the unit
sample of `random.choices` falls below `0.4`); on the `'no_food'` outcome
the moviegoer never acquires or releases the server and still completes,
appending its wait-time sample as the final event. -/
theorem food_branch_server (arrival finish uTicket uChoice uFood : ℚ) :
    ((Ev.acquire Res.server ∈ go_to_movies arrival finish uTicket uChoice uFood) ↔
        "food" ∈ random_choices_food uChoice) ∧
      (("food" ∈ random_choices_food uChoice) ↔ uChoice < 2/5) ∧
      (¬ uChoice < 2/5 →
        Ev.acquire Res.server ∉ go_to_movies arrival finish uTicket uChoice uFood ∧
        Ev.release Res.server ∉ go_to_movies arrival finish uTicket uChoice uFood ∧
        (go_to_movies arrival finish uTicket uChoice uFood).getLast? =
          some (Ev.append (finish - arrival))) := by
  have hch : ("food" ∈ random_choices_food uChoice) ↔ uChoice < 2/5 := by
    by_cases h : uChoice < 2/5 <;> simp [random_choices_food, h]
  refine ⟨?_, hch, fun hnot => ?_⟩
  · by_cases h : "food" ∈ random_choices_food uChoice <;>
      simp [go_to_movies, purchase_ticket, check_ticket, sell_food, h]
  · have h : ¬ "food" ∈ random_choices_food uChoice := fun hc => hnot (hch.mp hc)
    refine ⟨?_, ?_, ?_⟩ <;>
      simp [go_to_movies, purchase_ticket, check_ticket, sell_food, h,
        List.getLast?_concat]

theorem food_branch_server_witness :
    Ev.acquire Res.server ∉ go_to_movies 0 7 0 (1/2) 0 ∧
      Ev.release Res.server ∉ go_to_movies 0 7 0 (1/2) 0 ∧
      (go_to_movies 0 7 0 (1/2) 0).getLast? = some (Ev.append (7 - 0)) :=
  (food_branch_server 0 7 0 (1/2) 0).2.2 (by norm_num)

theorem step_preserves_bounds {s s' : Pool} {op : PoolOp} {g : List Nat}
    (h : s.step op = Except.ok (s', g))
    (h0 : 0 ≤ s.held_count) (h1 : s.held_count ≤ s.capacity) :
    0 ≤ s'.held_count ∧ s'.held_count ≤ s.capacity ∧ s'.capacity = s.capacity := by
  cases op with
  | acquire rid =>
      simp only [Pool.step, Pool.acquire, Except.ok.injEq] at h
      by_cases hlt : s.held_count < s.capacity
      · rw [if_pos hlt] at h
        obtain ⟨rfl, -⟩ := Prod.mk.injEq .. ▸ h
        refine ⟨?_, ?_, rfl⟩
        · show (0 : ℤ) ≤ s.held_count + 1
          omega
        · show s.held_count + 1 ≤ s.capacity
          omega
      · rw [if_neg hlt] at h
        obtain ⟨rfl, -⟩ := Prod.mk.injEq .. ▸ h
        exact ⟨h0, h1, rfl⟩
  | release =>
      simp only [Pool.step, Pool.release] at h
      by_cases hle : s.held_count ≤ 0
      · rw [if_pos hle] at h
        exact absurd h (by simp)
      · rw [if_neg hle] at h
        cases hq : s.wait_queue with
        | nil =>
            rw [hq] at h
            simp only [Except.ok.injEq] at h
            obtain ⟨rfl, -⟩ := Prod.mk.injEq .. ▸ h
            refine ⟨?_, ?_, rfl⟩
            · show (0 : ℤ) ≤ s.held_count - 1
              omega
            · show s.held_count - 1 ≤ s.capacity
              omega
        | cons w rest =>
            rw [hq] at h
            simp only [Except.ok.injEq] at h
            obtain ⟨rfl, -⟩ := Prod.mk.injEq .. ▸ h
            refine ⟨?_, ?_, rfl⟩
            · show (0 : ℤ) ≤ s.held_count - 1 + 1
              omega
            · show s.held_count - 1 + 1 ≤ s.capacity
              omega

theorem step_preserves_inv {s s' : Pool} {op : PoolOp} {g : List Nat}
    (h : s.step op = Except.ok (s', g)) (hinv : PoolInv s) : PoolInv s' := by
  cases op with
  | acquire rid =>
      simp only [Pool.step, Pool.acquire, Except.ok.injEq] at h
      by_cases hlt : s.held_count < s.capacity
      · rw [if_pos hlt] at h
        obtain ⟨rfl, -⟩ := Prod.mk.injEq .. ▸ h
        intro hne
        have hne' : s.wait_queue ≠ [] := hne
        exact absurd (hinv hne') (by omega)
      · rw [if_neg hlt] at h
        obtain ⟨rfl, -⟩ := Prod.mk.injEq .. ▸ h
        intro _
        show s.capacity ≤ s.held_count
        omega
  | release =>
      simp only [Pool.step, Pool.release] at h
      by_cases hle : s.held_count ≤ 0
      · rw [if_pos hle] at h
        exact absurd h (by simp)
      · rw [if_neg hle] at h
        cases hq : s.wait_queue with
        | nil =>
            rw [hq] at h
            simp only [Except.ok.injEq] at h
            obtain ⟨rfl, -⟩ := Prod.mk.injEq .. ▸ h
            intro hne
            exact absurd rfl hne
        | cons w rest =>
            rw [hq] at h
            simp only [Except.ok.injEq] at h
            obtain ⟨rfl, -⟩ := Prod.mk.injEq .. ▸ h
            intro _
            have hcc := hinv (by rw [hq]; exact List.cons_ne_nil w rest)
            show s.capacity ≤ s.held_count - 1 + 1
            omega

theorem runStates_preserve (P : Pool → Prop)
    (hP : ∀ (s : Pool) (op : PoolOp) (s' : Pool) (g : List Nat),
      P s → s.step op = Except.ok (s', g) → P s') :
    ∀ (ops : List PoolOp) (s0 : Pool), P s0 → ∀ s ∈ runStates s0 ops, P s := by
  intro ops
  induction ops with
  | nil =>
      intro s0 _ s hs
      simp [runStates] at hs
  | cons op ops ih =>
      intro s0 h0 s hs
      rw [runStates] at hs
      cases hstep : s0.step op with
      | error e => rw [hstep] at hs; simp at hs
      | ok p =>
          obtain ⟨s1, g⟩ := p
          rw [hstep] at hs
          simp only [List.mem_cons] at hs
          have h1 : P s1 := hP s0 op s1 g h0 hstep
          rcases hs with rfl | hs
          · exact h1
          · exact ih s1 h1 s hs

/-- C3: starting from a pool of positive capacity `C`, along every
sequence of acquire/release operations (halting at the first contract
violation) every reached state satisfies `0 ≤ held_count ≤ C`. -/
theorem pool_held_count_bounds (C : ℤ) (ops : List PoolOp) (s : Pool)
    (hC : 0 < C) (hs : s ∈ mkPool C :: runStates (mkPool C) ops) :
    0 ≤ s.held_count ∧ s.held_count ≤ C := by
  have base : 0 ≤ (mkPool C).held_count ∧ (mkPool C).held_count ≤ C ∧
      (mkPool C).capacity = C := ⟨le_refl 0, le_of_lt hC, rfl⟩
  rcases List.mem_cons.mp hs with rfl | hs'
  · exact ⟨base.1, base.2.1⟩
  · have := runStates_preserve
      (fun s => 0 ≤ s.held_count ∧ s.held_count ≤ C ∧ s.capacity = C)
      (fun s op s' g hP hstep => by
        obtain ⟨hb0, hb1, hbc⟩ := hP
        obtain ⟨h0', h1', hc'⟩ := step_preserves_bounds hstep hb0 (hbc ▸ hb1)
        exact ⟨h0', hbc ▸ h1', hbc ▸ hc'⟩)
      ops (mkPool C) base s hs'
    exact ⟨this.1, this.2.1⟩

theorem pool_held_count_bounds_witness :
    0 ≤ (Pool.mk 1 1 []).held_count ∧ (Pool.mk 1 1 []).held_count ≤ 1 :=
  pool_held_count_bounds 1 [PoolOp.acquire 0] (Pool.mk 1 1 [])
    (by norm_num) (by decide)

theorem runGrants_fifo (r1 r2 : Nat) :
    ∀ (ops : List PoolOp) (s : Pool) (pre mid post g1 g2 : List Nat),
      PoolInv s →
      s.wait_queue = pre ++ r1 :: mid ++ r2 :: post →
      r2 ∉ pre → r2 ∉ mid → r1 ≠ r2 →
      runGrants s ops = g1 ++ r2 :: g2 →
      r1 ∈ g1 := by
  intro ops
  induction ops with
  | nil =>
      intro s pre mid post g1 g2 _ _ _ _ _ hg
      rw [runGrants] at hg
      simp at hg
  | cons op ops ih =>
      intro s pre mid post g1 g2 hinv hq h2pre h2mid h12 hg
      rw [runGrants] at hg
      have hqne : s.wait_queue ≠ [] := by
        rw [hq]; simp
      cases op with
      | acquire rid =>
          have hsat : ¬ s.held_count < s.capacity := not_lt.mpr (hinv hqne)
          have hstep : s.step (PoolOp.acquire rid) =
              Except.ok ({ s with wait_queue := s.wait_queue ++ [rid] }, []) := by
            show Except.ok (s.acquire rid) = _
            rw [Pool.acquire, if_neg hsat]
          rw [hstep] at hg
          simp only [List.nil_append] at hg
          refine ih _ pre mid (post ++ [rid]) g1 g2
            (step_preserves_inv hstep hinv) ?_ h2pre h2mid h12 hg
          show s.wait_queue ++ [rid] = pre ++ r1 :: mid ++ r2 :: (post ++ [rid])
          rw [hq]
          simp [List.append_assoc]
      | release =>
          by_cases hle : s.held_count ≤ 0
          · have hstep : s.step PoolOp.release =
                Except.error PoolErr.resourceMisuse := by
              show s.release = _
              rw [Pool.release, if_pos hle]
            rw [hstep] at hg
            simp at hg
          · cases pre with
            | nil =>
                have hstep : s.step PoolOp.release =
                    Except.ok ({ s with held_count := s.held_count - 1 + 1,
                                        wait_queue := mid ++ r2 :: post }, [r1]) := by
                  show s.release = _
                  rw [Pool.release, if_neg hle, hq]
                  rfl
                rw [hstep] at hg
                simp only [List.singleton_append, List.nil_append] at hg
                cases g1 with
                | nil =>
                    simp only [List.nil_append] at hg
                    injection hg with hh _
                    exact absurd hh h12
                | cons a g1' =>
                    simp only [List.cons_append] at hg
                    injection hg with hh _
                    rw [hh]
                    exact List.mem_cons_self a g1'
            | cons p0 pre' =>
                have hstep : s.step PoolOp.release =
                    Except.ok ({ s with held_count := s.held_count - 1 + 1,
                                        wait_queue := pre' ++ r1 :: mid ++ r2 :: post },
                      [p0]) := by
                  show s.release = _
                  rw [Pool.release, if_neg hle, hq]
                  rfl
                rw [hstep] at hg
                simp only [List.singleton_append] at hg
                cases g1 with
                | nil =>
                    simp only [List.nil_append] at hg
                    injection hg with hh _
                    refine absurd ?_ h2pre
                    rw [← hh]
                    exact List.mem_cons_self p0 pre'
                | cons a g1' =>
                    simp only [List.cons_append] at hg
                    injection hg with _ hrest
                    have hmem := ih _ pre' mid post g1' g2
                      (step_preserves_inv hstep hinv) rfl
                      (fun hm => h2pre (List.mem_cons_of_mem p0 hm)) h2mid h12 hrest
                    exact List.mem_cons_of_mem a hmem

/-- C4: FIFO fairness of the Resource Pool.  If, in any state reachable
from a fresh pool, the blocked request `r1` sits ahead of the blocked
request `r2` in the wait queue, then along any subsequent sequence of
operations every grant of `r2` is preceded by a grant of `r1`: releases
always grant the head of the wait queue, with no reordering. -/
theorem pool_fifo_grants (C : ℤ) (ops0 : List PoolOp) (s : Pool)
    (pre mid post : List Nat) (r1 r2 : Nat) (ops : List PoolOp)
    (g1 g2 : List Nat) (hs : s ∈ mkPool C :: runStates (mkPool C) ops0)
    (hq : s.wait_queue = pre ++ r1 :: mid ++ r2 :: post)
    (h2pre : r2 ∉ pre) (h2mid : r2 ∉ mid) (h12 : r1 ≠ r2)
    (hg : runGrants s ops = g1 ++ r2 :: g2) : r1 ∈ g1 := by
  have hinv : PoolInv s := by
    rcases List.mem_cons.mp hs with rfl | hs'
    · intro hne
      exact absurd rfl hne
    · exact runStates_preserve PoolInv
        (fun s op s' g hP hstep => step_preserves_inv hstep hP)
        ops0 (mkPool C) (fun hne => absurd rfl hne) s hs'
  exact runGrants_fifo r1 r2 ops s pre mid post g1 g2 hinv hq h2pre h2mid h12 hg

theorem pool_fifo_grants_witness : (8 : Nat) ∈ [(8 : Nat)] :=
  pool_fifo_grants 1 [PoolOp.acquire 7, PoolOp.acquire 8, PoolOp.acquire 9]
    (Pool.mk 1 1 [8, 9]) [] [] [] 8 9 [PoolOp.release, PoolOp.release]
    [8] [] (by decide) rfl (by decide) (by decide) (by decide) (by decide)

/-- C6: requesting a timeout with a negative delay is rejected with
`InvalidDelay` at the call site: the scheduler's clock and event queue are
returned unchanged and the calling process keeps its status instead of
being suspended. -/
theorem schedule_timeout_negative (s : Sched) (p : ProcStatus) (d : ℚ)
    (h : d < 0) :
    schedule_timeout s p d = (s, p, some SchedErr.invalidDelay) := by
  rw [schedule_timeout, if_pos h]

theorem schedule_timeout_negative_witness :
    schedule_timeout (Sched.mk 0 [] 0) ProcStatus.running (-1) =
      (Sched.mk 0 [] 0, ProcStatus.running, some SchedErr.invalidDelay) :=
  schedule_timeout_negative (Sched.mk 0 [] 0) ProcStatus.running (-1)
    (by norm_num)

end SimpyTheater
